import Mathlib

/-!
Verification of the LZ77 decoder (src/decompress.rs, src/lib.rs).

The byte stream of the Rust `Read` source is modelled as a `List Nat`
(every byte is below 256; theorems that need this carry it as a
hypothesis).  Fallible Rust code returning `Result` is modelled with
`RResult`, which distinguishes the `Err` value from a Rust `panic!` /
`unreachable!` / division-by-zero abort so that panic-freedom can be
stated.
-/

namespace LZ77

/-- Outcome of a Rust computation: `ok`, a returned `Err`, or a panic
(abort). A `panic` is not an `Err`: in Rust it unwinds past the caller. -/
inductive RResult (α : Type) where
  | ok (val : α)
  | err (msg : String)
  | panic (msg : String)
deriving DecidableEq, Repr

/-- The `Offset` enum of decompress.rs: a literal chunk of `length`
bytes, or a dictionary match of `length` bytes at distance `offset`. -/
inductive Offset where
  | Literal (length : Nat)
  | Dictionary (length : Nat) (offset : Nat)
deriving DecidableEq, Repr

/-- read_u8: read exactly one byte from the stream, returning it and the
remaining stream; `none` models the `std::io::Error` of `read_exact` on
an exhausted source. -/
def read_u8 : List Nat → Option (Nat × List Nat)
  | [] => none
  | b :: rest => some (b, rest)

/-- read_bytes: read exactly `n` bytes; `none` models the
`std::io::Error` of `read_exact` when fewer than `n` bytes remain. -/
def read_bytes (stream : List Nat) (n : Nat) : Option (List Nat × List Nat) :=
  if n ≤ stream.length then some (stream.take n, stream.drop n) else none

/-- q_mask: low five bits of the control byte (`i & 0b0001_1111`). -/
def q_mask (i : Nat) : Nat :=
  i &&& 0x1F

/-- cb_mask: ordered bitmask probing of the control byte. `none` models
the terminal `panic!("Unknown control byte…")` branch. -/
def cb_mask (i : Nat) : Option Nat :=
  if i ||| 0x1F = 0x1F then some 1
  else if i ||| 0x3F = 0x3F then some 3
  else if i ||| 0x5F = 0x5F then some 4
  else if i ||| 0x7F = 0x7F then some 5
  else if i ||| 0x9F = 0x9F then some 6
  else if i ||| 0xBF = 0xBF then some 7
  else if i ||| 0xDF = 0xDF then some 8
  else if i ||| 0xFF = 0xFF then some 9
  else none

/-- Body of the copy loop of fetch_offset: `remaining` iterations are
left, `i` is the current loop index, and the source position in the
dictionary is `dictionary.length - offset + (i % offset)` exactly as in
the source. The explicit `offset = 0` branch models the Rust panic of
`i % 0`; the `≥ dictionary.length` branch is the code's defensive index
check. -/
def fetch_loop (dictionary : List Nat) (offset : Nat) :
    Nat → Nat → List Nat → RResult (List Nat)
  | _, 0, acc => .ok acc
  | i, remaining + 1, acc =>
    if offset = 0 then
      .panic "attempt to calculate the remainder with a divisor of zero"
    else
      if dictionary.length - offset + (i % offset) ≥ dictionary.length then
        .err "Index out of bounds."
      else
        fetch_loop dictionary offset (i + 1) remaining
          (acc ++ [dictionary.getD (dictionary.length - offset + (i % offset)) 0])

/-- fetch_offset: fetch `length` bytes from the dictionary at 1-based
back-distance `offset` (decompress.rs lines 55–71). The dictionary
argument is read-only; the result is a fresh list. -/
def fetch_offset (dictionary : List Nat) (length offset : Nat) : RResult (List Nat) :=
  if offset > dictionary.length then .err "Offset larger than dictionary"
  else fetch_loop dictionary offset 0 length []

/-- get_control_bytes: read one control byte and its 0–2 follow-up bytes
and classify the token (decompress.rs lines 76–102). The `.panic`
results model `panic!` in cb_mask and the `unreachable!()` arm. -/
def get_control_bytes (stream : List Nat) : RResult (Offset × List Nat) :=
  match read_u8 stream with
  | none => .err "failed to fill whole buffer"
  | some (cb, rest) =>
    let q := q_mask cb
    match cb_mask cb with
    | none => .panic "Unknown control byte."
    | some m =>
      if m = 1 then
        .ok (.Literal (1 + q), rest)
      else if 3 ≤ m ∧ m ≤ 8 then
        match read_u8 rest with
        | none => .err "failed to fill whole buffer"
        | some (r, rest2) => .ok (.Dictionary m ((q <<< 8) + r + 1), rest2)
      else if m = 9 then
        match read_u8 rest with
        | none => .err "failed to fill whole buffer"
        | some (r, rest2) =>
          match read_u8 rest2 with
          | none => .err "failed to fill whole buffer"
          | some (s, rest3) => .ok (.Dictionary (9 + r) ((q <<< 8) + s + 1), rest3)
      else .panic "internal error: entered unreachable code"

/-- The decode loop of decompress (decompress.rs lines 14–36): read
control bytes; on a dictionary token resolve it against the buffer and
append; on a literal token read the payload and append; any
get_control_bytes error terminates the loop successfully with the buffer
accumulated so far. -/
def decompressLoop (stream dictionary : List Nat) : RResult (List Nat) :=
  match h : get_control_bytes stream with
  | .err _ => .ok dictionary
  | .panic msg => .panic msg
  | .ok (Offset.Dictionary length offset, rest) =>
    match fetch_offset dictionary length offset with
    | .ok dict => decompressLoop rest (dictionary ++ dict)
    | .err e => .err e
    | .panic msg => .panic msg
  | .ok (Offset.Literal length, rest) =>
    match h2 : read_bytes rest length with
    | some (bytes, rest2) => decompressLoop rest2 (dictionary ++ bytes)
    | none => .err "Cannot take any more literal bytes, reached end of compressed buffer."
termination_by stream.length
decreasing_by
  · unfold get_control_bytes at h
    cases stream with
    | nil => simp [read_u8] at h
    | cons cb t =>
      rcases t with _ | ⟨r, _ | ⟨s, t3⟩⟩ <;>
        · simp only [read_u8] at h
          split at h <;> try exact RResult.noConfusion h
          all_goals split_ifs at h <;>
            first
            | exact RResult.noConfusion h
            | (cases h <;> (simp only [List.length_cons]; omega))
  · have hle : rest2.length ≤ rest.length := by
      unfold read_bytes at h2
      split at h2
      · simp only [Option.some.injEq, Prod.mk.injEq] at h2
        rw [← h2.2]
        simp
      · exact Option.noConfusion h2
    have hlt : rest.length < stream.length := by
      unfold get_control_bytes at h
      cases stream with
      | nil => simp [read_u8] at h
      | cons cb t =>
        rcases t with _ | ⟨r, _ | ⟨s, t3⟩⟩ <;>
          · simp only [read_u8] at h
            split at h <;> try exact RResult.noConfusion h
            all_goals split_ifs at h <;>
              first
              | exact RResult.noConfusion h
              | (cases h <;> (simp only [List.length_cons]; omega))
    omega

/-- decompress: the buffered public entry point (decompress.rs line 11,
re-exported by lib.rs). -/
def decompress (stream : List Nat) : RResult (List Nat) :=
  decompressLoop stream []

/-- Length in output bytes contributed by one token. -/
def token_length : Offset → Nat
  | .Literal length => length
  | .Dictionary length _ => length

/-- Token trace of a stream: the sequence of tokens the decode loop
processes, mirroring the control flow of decompressLoop without the
output buffer. `none` marks an outcome in which the loop would not
terminate at a token boundary with a full trace (truncated literal
payload or an unreachable control-byte panic). -/
def parse_tokens (stream : List Nat) : Option (List Offset) :=
  match h : get_control_bytes stream with
  | .err _ => some []
  | .panic _ => none
  | .ok (Offset.Dictionary length offset, rest) =>
    (parse_tokens rest).map fun ts => Offset.Dictionary length offset :: ts
  | .ok (Offset.Literal length, rest) =>
    match h2 : read_bytes rest length with
    | some (_, rest2) => (parse_tokens rest2).map fun ts => Offset.Literal length :: ts
    | none => none
termination_by stream.length
decreasing_by
  · unfold get_control_bytes at h
    cases stream with
    | nil => simp [read_u8] at h
    | cons cb t =>
      rcases t with _ | ⟨r, _ | ⟨s, t3⟩⟩ <;>
        · simp only [read_u8] at h
          split at h <;> try exact RResult.noConfusion h
          all_goals split_ifs at h <;>
            first
            | exact RResult.noConfusion h
            | (cases h <;> (simp only [List.length_cons]; omega))
  · have hle : rest2.length ≤ rest.length := by
      unfold read_bytes at h2
      split at h2
      · simp only [Option.some.injEq, Prod.mk.injEq] at h2
        rw [← h2.2]
        simp
      · exact Option.noConfusion h2
    have hlt : rest.length < stream.length := by
      unfold get_control_bytes at h
      cases stream with
      | nil => simp [read_u8] at h
      | cons cb t =>
        rcases t with _ | ⟨r, _ | ⟨s, t3⟩⟩ <;>
          · simp only [read_u8] at h
            split at h <;> try exact RResult.noConfusion h
            all_goals split_ifs at h <;>
              first
              | exact RResult.noConfusion h
              | (cases h <;> (simp only [List.length_cons]; omega))
    omega

/-- Specification-side match resolver, written from the words of the
spec (§4.2): with base = buffer.len() - offset, byte `i` of the result
is `buffer[base + (i mod offset)]`, for `i` in `0..length`. -/
def resolve_match (dictionary : List Nat) (length offset : Nat) : List Nat :=
  (List.range length).map fun i =>
    dictionary.getD (dictionary.length - offset + i % offset) 0

/-- Specification-side category table, written from the words of the
spec (§4.1 and C5): the category selected by the top three bits of the
control byte under the fixed mapping 000→1, 001→3, 010→4, 011→5, 100→6,
101→7, 110→8, 111→9. -/
def category_of_top3 (d : Nat) : Nat :=
  if d = 0 then 1 else d + 2

/-- Modelled from the spec: the sink-directed entry point
`decompress(source, sink)` of §6 is absent from src/ (lib.rs only
re-exports the buffered decompress), so it is modelled from §4.3: it
runs the identical decode loop and, on success, writes the completed
buffer once, in full, to the caller-supplied sink, returning no bytes to
the caller; on failure the error is returned and nothing is written. The
sink is modelled as the list of bytes written to it so far. -/
def decompress_sink (stream sink : List Nat) : RResult Unit × List Nat :=
  match decompressLoop stream [] with
  | .ok buf => (.ok (), sink ++ buf)
  | .err e => (.err e, sink)
  | .panic msg => (.panic msg, sink)

@[simp] theorem read_u8_nil : read_u8 [] = none := rfl

@[simp] theorem read_u8_cons (b : Nat) (rest : List Nat) :
    read_u8 (b :: rest) = some (b, rest) := rfl

theorem read_bytes_ok {stream bs rest : List Nat} {n : Nat}
    (h : read_bytes stream n = some (bs, rest)) :
    bs = stream.take n ∧ rest = stream.drop n ∧ bs.length = n := by
  unfold read_bytes at h
  split at h
  · simp only [Option.some.injEq, Prod.mk.injEq] at h
    refine ⟨h.1.symm, h.2.symm, ?_⟩
    rw [← h.1]
    simp
    omega
  · exact Option.noConfusion h

theorem read_bytes_none {stream : List Nat} {n : Nat}
    (h : stream.length < n) : read_bytes stream n = none := by
  unfold read_bytes
  split
  · omega
  · rfl

theorem cb_mask_cases {i m : Nat} (h : cb_mask i = some m) :
    m = 1 ∨ (3 ≤ m ∧ m ≤ 8) ∨ m = 9 := by
  unfold cb_mask at h
  split_ifs at h <;> simp only [Option.some.injEq] at h <;> omega

theorem get_control_bytes_nil :
    get_control_bytes [] = .err "failed to fill whole buffer" := rfl

theorem get_control_bytes_unknown {cb : Nat} (t : List Nat)
    (h : cb_mask cb = none) :
    get_control_bytes (cb :: t) = .panic "Unknown control byte." := by
  simp [get_control_bytes, h]

theorem get_control_bytes_literal {cb : Nat} (t : List Nat)
    (h : cb_mask cb = some 1) :
    get_control_bytes (cb :: t) = .ok (.Literal (1 + q_mask cb), t) := by
  simp [get_control_bytes, h]

theorem get_control_bytes_mid_trunc {cb m : Nat}
    (h : cb_mask cb = some m) (h3 : 3 ≤ m) (h4 : m ≤ 8) :
    get_control_bytes [cb] = .err "failed to fill whole buffer" := by
  have h1 : ¬m = 1 := by omega
  simp [get_control_bytes, h, h1, h3, h4]

theorem get_control_bytes_mid {cb m r : Nat} (t : List Nat)
    (h : cb_mask cb = some m) (h3 : 3 ≤ m) (h4 : m ≤ 8) :
    get_control_bytes (cb :: r :: t) =
      .ok (.Dictionary m ((q_mask cb <<< 8) + r + 1), t) := by
  have h1 : ¬m = 1 := by omega
  simp [get_control_bytes, h, h1, h3, h4]

theorem get_control_bytes_nine_trunc0 {cb : Nat}
    (h : cb_mask cb = some 9) :
    get_control_bytes [cb] = .err "failed to fill whole buffer" := by
  simp [get_control_bytes, h]

theorem get_control_bytes_nine_trunc1 {cb r : Nat}
    (h : cb_mask cb = some 9) :
    get_control_bytes [cb, r] = .err "failed to fill whole buffer" := by
  simp [get_control_bytes, h]

theorem get_control_bytes_nine {cb r s : Nat} (t : List Nat)
    (h : cb_mask cb = some 9) :
    get_control_bytes (cb :: r :: s :: t) =
      .ok (.Dictionary (9 + r) ((q_mask cb <<< 8) + s + 1), t) := by
  simp [get_control_bytes, h]

theorem decompressLoop_gcb_err {stream dictionary : List Nat} {e : String}
    (h : get_control_bytes stream = .err e) :
    decompressLoop stream dictionary = .ok dictionary := by
  rw [decompressLoop]
  split <;> simp_all

theorem decompressLoop_gcb_panic {stream dictionary : List Nat} {msg : String}
    (h : get_control_bytes stream = .panic msg) :
    decompressLoop stream dictionary = .panic msg := by
  rw [decompressLoop]
  split <;> simp_all

theorem decompressLoop_dict_ok {stream dictionary rest d : List Nat} {length offset : Nat}
    (h : get_control_bytes stream = .ok (.Dictionary length offset, rest))
    (hf : fetch_offset dictionary length offset = .ok d) :
    decompressLoop stream dictionary = decompressLoop rest (dictionary ++ d) := by
  rw [decompressLoop]
  split
  · simp_all
  · simp_all
  · case _ l o r heq =>
    rw [h] at heq
    simp only [RResult.ok.injEq, Prod.mk.injEq, Offset.Dictionary.injEq] at heq
    obtain ⟨⟨rfl, rfl⟩, rfl⟩ := heq
    rw [hf]
  · case _ l r heq =>
    rw [h] at heq
    simp at heq

theorem decompressLoop_dict_err {stream dictionary rest : List Nat} {length offset : Nat}
    {e : String}
    (h : get_control_bytes stream = .ok (.Dictionary length offset, rest))
    (hf : fetch_offset dictionary length offset = .err e) :
    decompressLoop stream dictionary = .err e := by
  rw [decompressLoop]
  split
  · simp_all
  · simp_all
  · case _ l o r heq =>
    rw [h] at heq
    simp only [RResult.ok.injEq, Prod.mk.injEq, Offset.Dictionary.injEq] at heq
    obtain ⟨⟨rfl, rfl⟩, rfl⟩ := heq
    rw [hf]
  · case _ l r heq =>
    rw [h] at heq
    simp at heq

theorem decompressLoop_dict_panic {stream dictionary rest : List Nat} {length offset : Nat}
    {msg : String}
    (h : get_control_bytes stream = .ok (.Dictionary length offset, rest))
    (hf : fetch_offset dictionary length offset = .panic msg) :
    decompressLoop stream dictionary = .panic msg := by
  rw [decompressLoop]
  split
  · simp_all
  · simp_all
  · case _ l o r heq =>
    rw [h] at heq
    simp only [RResult.ok.injEq, Prod.mk.injEq, Offset.Dictionary.injEq] at heq
    obtain ⟨⟨rfl, rfl⟩, rfl⟩ := heq
    rw [hf]
  · case _ l r heq =>
    rw [h] at heq
    simp at heq

theorem decompressLoop_lit_ok {stream dictionary rest rest2 bytes : List Nat} {length : Nat}
    (h : get_control_bytes stream = .ok (.Literal length, rest))
    (h2 : read_bytes rest length = some (bytes, rest2)) :
    decompressLoop stream dictionary = decompressLoop rest2 (dictionary ++ bytes) := by
  rw [decompressLoop]
  split
  · simp_all
  · simp_all
  · case _ l o r heq =>
    rw [h] at heq
    simp at heq
  · case _ l r heq =>
    rw [h] at heq
    simp only [RResult.ok.injEq, Prod.mk.injEq, Offset.Literal.injEq] at heq
    obtain ⟨rfl, rfl⟩ := heq
    split
    · case _ b r2 heq2 =>
      rw [h2] at heq2
      simp only [Option.some.injEq, Prod.mk.injEq] at heq2
      obtain ⟨rfl, rfl⟩ := heq2
      rfl
    · case _ heq2 =>
      rw [h2] at heq2
      exact Option.noConfusion heq2

theorem decompressLoop_lit_trunc {stream dictionary rest : List Nat} {length : Nat}
    (h : get_control_bytes stream = .ok (.Literal length, rest))
    (h2 : read_bytes rest length = none) :
    decompressLoop stream dictionary =
      .err "Cannot take any more literal bytes, reached end of compressed buffer." := by
  rw [decompressLoop]
  split
  · simp_all
  · simp_all
  · case _ l o r heq =>
    rw [h] at heq
    simp at heq
  · case _ l r heq =>
    rw [h] at heq
    simp only [RResult.ok.injEq, Prod.mk.injEq, Offset.Literal.injEq] at heq
    obtain ⟨rfl, rfl⟩ := heq
    split
    · case _ b r2 heq2 =>
      rw [h2] at heq2
      exact Option.noConfusion heq2
    · case _ heq2 => rfl

theorem decompressLoop_nil (dictionary : List Nat) :
    decompressLoop [] dictionary = .ok dictionary :=
  decompressLoop_gcb_err get_control_bytes_nil

theorem fetch_loop_ok {dictionary : List Nat} {offset : Nat}
    (h1 : 1 ≤ offset) (h2 : offset ≤ dictionary.length) (rem : Nat) :
    ∀ (i : Nat) (acc : List Nat),
    fetch_loop dictionary offset i rem acc =
      .ok (acc ++ (List.range' i rem).map fun j =>
        dictionary.getD (dictionary.length - offset + j % offset) 0) := by
  induction rem with
  | zero => intro i acc; simp [fetch_loop]
  | succ n ih =>
    intro i acc
    rw [fetch_loop]
    have hoff : ¬ offset = 0 := by omega
    have hmod : i % offset < offset := Nat.mod_lt _ (by omega)
    have hpos : ¬ dictionary.length - offset + i % offset ≥ dictionary.length := by omega
    simp only [hoff, hpos, if_false]
    rw [ih (i + 1) (acc ++ [dictionary.getD (dictionary.length - offset + i % offset) 0])]
    simp [List.range'_succ, List.append_assoc]

theorem fetch_loop_length {dictionary : List Nat} {offset : Nat} (rem : Nat) :
    ∀ (i : Nat) (acc result : List Nat),
    fetch_loop dictionary offset i rem acc = .ok result →
    result.length = acc.length + rem := by
  induction rem with
  | zero =>
    intro i acc result h
    simp only [fetch_loop, RResult.ok.injEq] at h
    rw [← h]
    simp
  | succ n ih =>
    intro i acc result h
    rw [fetch_loop] at h
    split at h
    · exact RResult.noConfusion h
    · split at h
      · exact RResult.noConfusion h
      · have := ih (i + 1) _ result h
        simp at this
        omega

theorem fetch_loop_ne_panic {dictionary : List Nat} {offset : Nat} (hoff : ¬ offset = 0)
    (rem : Nat) : ∀ (i : Nat) (acc : List Nat) (msg : String),
    fetch_loop dictionary offset i rem acc ≠ .panic msg := by
  induction rem with
  | zero =>
    intro i acc msg hc
    simp [fetch_loop] at hc
  | succ n ih =>
    intro i acc msg hc
    rw [fetch_loop] at hc
    simp only [hoff, if_false] at hc
    split at hc
    · exact RResult.noConfusion hc
    · exact ih (i + 1) _ msg hc

theorem fetch_offset_ne_panic {dictionary : List Nat} {length offset : Nat}
    (hoff : ¬ offset = 0) (msg : String) :
    fetch_offset dictionary length offset ≠ .panic msg := by
  unfold fetch_offset
  split
  · exact fun hc => RResult.noConfusion hc
  · exact fetch_loop_ne_panic hoff length 0 [] msg

theorem fetch_offset_ok {dictionary : List Nat} {offset : Nat} (h1 : 1 ≤ offset)
    (h2 : offset ≤ dictionary.length) (length : Nat) :
    fetch_offset dictionary length offset = .ok (resolve_match dictionary length offset) := by
  unfold fetch_offset resolve_match
  have hgt : ¬ offset > dictionary.length := by omega
  simp only [hgt, if_false]
  rw [fetch_loop_ok h1 h2 length 0 []]
  simp [List.range_eq_range']

theorem fetch_offset_ok_length {dictionary d : List Nat} {length offset : Nat}
    (h : fetch_offset dictionary length offset = .ok d) : d.length = length := by
  unfold fetch_offset at h
  split at h
  · exact RResult.noConfusion h
  · have := fetch_loop_length length 0 [] d h
    simpa using this

theorem fetch_offset_oob {dictionary : List Nat} {length offset : Nat}
    (h : dictionary.length < offset) :
    fetch_offset dictionary length offset = .err "Offset larger than dictionary" := by
  unfold fetch_offset
  split
  · rfl
  · omega

theorem getD_drop (l : List Nat) (k m : Nat) :
    (l.drop k).getD m 0 = l.getD (k + m) 0 := by
  simp [List.getD_eq_getElem?_getD, List.getElem?_drop]

theorem getD_map_range {f : Nat → Nat} {n i : Nat} (h : i < n) :
    ((List.range n).map f).getD i 0 = f i := by
  rw [List.getD_eq_getElem?_getD, List.getElem?_map]
  simp [List.getElem?_range h]

theorem take_eq_range_map {l : List Nat} {n : Nat} (h : n ≤ l.length) :
    l.take n = (List.range n).map fun i => l.getD i 0 := by
  apply List.ext_getElem
  · simp
    omega
  · intro i h1 h2
    simp only [List.getElem_take, List.getElem_map, List.getElem_range]
    rw [List.getD_eq_getElem]

theorem resolve_match_length (dictionary : List Nat) (length offset : Nat) :
    (resolve_match dictionary length offset).length = length := by
  simp [resolve_match]

theorem resolve_match_window {dictionary : List Nat} {offset : Nat}
    (length : Nat) :
    resolve_match dictionary length offset =
      (List.range length).map fun i =>
        (dictionary.drop (dictionary.length - offset)).getD (i % offset) 0 := by
  unfold resolve_match
  apply List.map_congr_left
  intro i _
  rw [getD_drop]

theorem resolve_match_take {dictionary : List Nat} {length offset : Nat}
    (h1 : offset ≤ dictionary.length) (h : length ≤ offset) (h0 : 1 ≤ offset) :
    resolve_match dictionary length offset =
      (dictionary.drop (dictionary.length - offset)).take length := by
  rw [resolve_match_window length]
  have hw : (dictionary.drop (dictionary.length - offset)).length = offset := by
    simp
    omega
  rw [take_eq_range_map (by omega)]
  apply List.map_congr_left
  intro i hi
  rw [Nat.mod_eq_of_lt]
  exact Nat.lt_of_lt_of_le (List.mem_range.mp hi) h

theorem get_control_bytes_length_lt {stream rest : List Nat} {off : Offset}
    (h : get_control_bytes stream = .ok (off, rest)) : rest.length < stream.length := by
  cases stream with
  | nil => rw [get_control_bytes_nil] at h; exact RResult.noConfusion h
  | cons cb t =>
    cases hm : cb_mask cb with
    | none =>
      rw [get_control_bytes_unknown t hm] at h
      exact RResult.noConfusion h
    | some m =>
      rcases cb_mask_cases hm with rfl | ⟨h3, h4⟩ | rfl
      · rw [get_control_bytes_literal t hm] at h
        cases h
        simp
      · cases t with
        | nil =>
          rw [get_control_bytes_mid_trunc hm h3 h4] at h
          exact RResult.noConfusion h
        | cons r t2 =>
          rw [get_control_bytes_mid t2 hm h3 h4] at h
          cases h
          simp only [List.length_cons]
          omega
      · cases t with
        | nil =>
          rw [get_control_bytes_nine_trunc0 hm] at h
          exact RResult.noConfusion h
        | cons r t2 =>
          cases t2 with
          | nil =>
            rw [get_control_bytes_nine_trunc1 hm] at h
            exact RResult.noConfusion h
          | cons s t3 =>
            rw [get_control_bytes_nine t3 hm] at h
            cases h
            simp only [List.length_cons]
            omega

theorem get_control_bytes_mem {stream rest : List Nat} {off : Offset}
    (h : get_control_bytes stream = .ok (off, rest)) : ∀ b ∈ rest, b ∈ stream := by
  cases stream with
  | nil => rw [get_control_bytes_nil] at h; exact RResult.noConfusion h
  | cons cb t =>
    cases hm : cb_mask cb with
    | none =>
      rw [get_control_bytes_unknown t hm] at h
      exact RResult.noConfusion h
    | some m =>
      rcases cb_mask_cases hm with rfl | ⟨h3, h4⟩ | rfl
      · rw [get_control_bytes_literal t hm] at h
        cases h
        intro b hb
        exact List.mem_cons_of_mem _ hb
      · cases t with
        | nil =>
          rw [get_control_bytes_mid_trunc hm h3 h4] at h
          exact RResult.noConfusion h
        | cons r t2 =>
          rw [get_control_bytes_mid t2 hm h3 h4] at h
          cases h
          intro b hb
          exact List.mem_cons_of_mem _ (List.mem_cons_of_mem _ hb)
      · cases t with
        | nil =>
          rw [get_control_bytes_nine_trunc0 hm] at h
          exact RResult.noConfusion h
        | cons r t2 =>
          cases t2 with
          | nil =>
            rw [get_control_bytes_nine_trunc1 hm] at h
            exact RResult.noConfusion h
          | cons s t3 =>
            rw [get_control_bytes_nine t3 hm] at h
            cases h
            intro b hb
            exact List.mem_cons_of_mem _ (List.mem_cons_of_mem _ (List.mem_cons_of_mem _ hb))

theorem get_control_bytes_dict_bounds {stream rest : List Nat} {L O : Nat}
    (h : get_control_bytes stream = .ok (.Dictionary L O, rest)) : 1 ≤ O ∧ 3 ≤ L := by
  cases stream with
  | nil => rw [get_control_bytes_nil] at h; exact RResult.noConfusion h
  | cons cb t =>
    cases hm : cb_mask cb with
    | none =>
      rw [get_control_bytes_unknown t hm] at h
      exact RResult.noConfusion h
    | some m =>
      rcases cb_mask_cases hm with rfl | ⟨h3, h4⟩ | rfl
      · rw [get_control_bytes_literal t hm] at h
        simp at h
      · cases t with
        | nil =>
          rw [get_control_bytes_mid_trunc hm h3 h4] at h
          exact RResult.noConfusion h
        | cons r t2 =>
          rw [get_control_bytes_mid t2 hm h3 h4] at h
          simp only [RResult.ok.injEq, Prod.mk.injEq, Offset.Dictionary.injEq] at h
          obtain ⟨⟨rfl, rfl⟩, -⟩ := h
          omega
      · cases t with
        | nil =>
          rw [get_control_bytes_nine_trunc0 hm] at h
          exact RResult.noConfusion h
        | cons r t2 =>
          cases t2 with
          | nil =>
            rw [get_control_bytes_nine_trunc1 hm] at h
            exact RResult.noConfusion h
          | cons s t3 =>
            rw [get_control_bytes_nine t3 hm] at h
            simp only [RResult.ok.injEq, Prod.mk.injEq, Offset.Dictionary.injEq] at h
            obtain ⟨⟨rfl, rfl⟩, -⟩ := h
            omega

set_option maxRecDepth 8192 in
theorem cb_mask_table : ∀ i : Nat, i < 256 →
    cb_mask i = some (category_of_top3 (i >>> 5)) := by
  decide

theorem get_control_bytes_ne_panic {stream : List Nat} (hb : ∀ b ∈ stream, b < 256)
    (msg : String) : get_control_bytes stream ≠ .panic msg := by
  cases stream with
  | nil =>
    rw [get_control_bytes_nil]
    exact fun hc => RResult.noConfusion hc
  | cons cb t =>
    have hcb : cb < 256 := hb cb (List.mem_cons_self cb t)
    have hm := cb_mask_table cb hcb
    rcases cb_mask_cases hm with h1 | ⟨h3, h4⟩ | h9
    · rw [h1] at hm
      rw [get_control_bytes_literal t hm]
      exact fun hc => RResult.noConfusion hc
    · cases t with
      | nil =>
        rw [get_control_bytes_mid_trunc hm h3 h4]
        exact fun hc => RResult.noConfusion hc
      | cons r t2 =>
        rw [get_control_bytes_mid t2 hm h3 h4]
        exact fun hc => RResult.noConfusion hc
    · rw [h9] at hm
      cases t with
      | nil =>
        rw [get_control_bytes_nine_trunc0 hm]
        exact fun hc => RResult.noConfusion hc
      | cons r t2 =>
        cases t2 with
        | nil =>
          rw [get_control_bytes_nine_trunc1 hm]
          exact fun hc => RResult.noConfusion hc
        | cons s t3 =>
          rw [get_control_bytes_nine t3 hm]
          exact fun hc => RResult.noConfusion hc

theorem decompressLoop_ne_panic_aux : ∀ (n : Nat) (stream : List Nat),
    stream.length ≤ n → (∀ b ∈ stream, b < 256) →
    ∀ (dictionary : List Nat) (msg : String),
    decompressLoop stream dictionary ≠ .panic msg := by
  intro n
  induction n with
  | zero =>
    intro stream hlen hb dictionary msg
    have hnil : stream = [] := List.eq_nil_of_length_eq_zero (by omega)
    subst hnil
    rw [decompressLoop_nil]
    exact fun hc => RResult.noConfusion hc
  | succ n ih =>
    intro stream hlen hb dictionary msg hc
    cases hg : get_control_bytes stream with
    | err e =>
      rw [decompressLoop_gcb_err hg] at hc
      exact RResult.noConfusion hc
    | panic pm =>
      exact get_control_bytes_ne_panic hb pm hg
    | ok v =>
      obtain ⟨off, rest⟩ := v
      have hrl : rest.length < stream.length := get_control_bytes_length_lt hg
      have hrb : ∀ b ∈ rest, b < 256 := fun b hbr => hb b (get_control_bytes_mem hg b hbr)
      cases off with
      | Dictionary L O =>
        have hO : 1 ≤ O ∧ 3 ≤ L := get_control_bytes_dict_bounds hg
        cases hf : fetch_offset dictionary L O with
        | ok d =>
          rw [decompressLoop_dict_ok hg hf] at hc
          exact ih rest (by omega) hrb _ msg hc
        | err e =>
          rw [decompressLoop_dict_err hg hf] at hc
          exact RResult.noConfusion hc
        | panic pm =>
          exact fetch_offset_ne_panic (by omega) pm hf
      | Literal L =>
        cases h2 : read_bytes rest L with
        | some v2 =>
          obtain ⟨bytes, rest2⟩ := v2
          rw [decompressLoop_lit_ok hg h2] at hc
          have hdrop : rest2 = rest.drop L := (read_bytes_ok h2).2.1
          have hr2b : ∀ b ∈ rest2, b < 256 := by
            intro b hb2
            apply hrb
            rw [hdrop] at hb2
            exact List.drop_subset _ _ hb2
          have hr2l : rest2.length ≤ rest.length := by
            rw [hdrop]
            simp
          exact ih rest2 (by omega) hr2b _ msg hc
        | none =>
          rw [decompressLoop_lit_trunc hg h2] at hc
          exact RResult.noConfusion hc

theorem parse_tokens_gcb_err {stream : List Nat} {e : String}
    (h : get_control_bytes stream = .err e) :
    parse_tokens stream = some [] := by
  rw [parse_tokens]
  split <;> simp_all

theorem parse_tokens_nil : parse_tokens [] = some [] :=
  parse_tokens_gcb_err get_control_bytes_nil

theorem parse_tokens_dict {stream rest : List Nat} {L O : Nat}
    (h : get_control_bytes stream = .ok (.Dictionary L O, rest)) :
    parse_tokens stream = (parse_tokens rest).map fun ts => Offset.Dictionary L O :: ts := by
  rw [parse_tokens]
  split
  · simp_all
  · simp_all
  · case _ l o r heq =>
    rw [h] at heq
    simp only [RResult.ok.injEq, Prod.mk.injEq, Offset.Dictionary.injEq] at heq
    obtain ⟨⟨rfl, rfl⟩, rfl⟩ := heq
    rfl
  · case _ l r heq =>
    rw [h] at heq
    simp at heq

theorem parse_tokens_lit_ok {stream rest rest2 bytes : List Nat} {L : Nat}
    (h : get_control_bytes stream = .ok (.Literal L, rest))
    (h2 : read_bytes rest L = some (bytes, rest2)) :
    parse_tokens stream = (parse_tokens rest2).map fun ts => Offset.Literal L :: ts := by
  rw [parse_tokens]
  split
  · simp_all
  · simp_all
  · case _ l o r heq =>
    rw [h] at heq
    simp at heq
  · case _ l r heq =>
    rw [h] at heq
    simp only [RResult.ok.injEq, Prod.mk.injEq, Offset.Literal.injEq] at heq
    obtain ⟨rfl, rfl⟩ := heq
    split
    · case _ b r2 heq2 =>
      rw [h2] at heq2
      simp only [Option.some.injEq, Prod.mk.injEq] at heq2
      obtain ⟨rfl, rfl⟩ := heq2
      rfl
    · case _ heq2 =>
      rw [h2] at heq2
      exact Option.noConfusion heq2

theorem decompressLoop_ok_spec : ∀ (n : Nat) (stream : List Nat),
    stream.length ≤ n → ∀ (dictionary res : List Nat),
    decompressLoop stream dictionary = .ok res →
    (∃ tail, res = dictionary ++ tail) ∧
    ∃ ts, parse_tokens stream = some ts ∧
      res.length = dictionary.length + (ts.map token_length).sum := by
  intro n
  induction n with
  | zero =>
    intro stream hlen dictionary res h
    have hnil : stream = [] := List.eq_nil_of_length_eq_zero (by omega)
    subst hnil
    rw [decompressLoop_nil] at h
    cases h
    exact ⟨⟨[], by simp⟩, [], parse_tokens_nil, by simp⟩
  | succ n ih =>
    intro stream hlen dictionary res h
    cases hg : get_control_bytes stream with
    | err e =>
      rw [decompressLoop_gcb_err hg] at h
      cases h
      exact ⟨⟨[], by simp⟩, [], parse_tokens_gcb_err hg, by simp⟩
    | panic pm =>
      rw [decompressLoop_gcb_panic hg] at h
      exact RResult.noConfusion h
    | ok v =>
      obtain ⟨off, rest⟩ := v
      have hrl : rest.length < stream.length := get_control_bytes_length_lt hg
      cases off with
      | Dictionary L O =>
        cases hf : fetch_offset dictionary L O with
        | ok d =>
          rw [decompressLoop_dict_ok hg hf] at h
          obtain ⟨⟨tail, htail⟩, ts, hts, hsum⟩ := ih rest (by omega) _ res h
          have hd : d.length = L := fetch_offset_ok_length hf
          refine ⟨⟨d ++ tail, by rw [htail, List.append_assoc]⟩,
            Offset.Dictionary L O :: ts, ?_, ?_⟩
          · rw [parse_tokens_dict hg, hts]
            rfl
          · simp only [List.map_cons, List.sum_cons, token_length]
            simp only [List.length_append] at hsum
            omega
        | err e =>
          rw [decompressLoop_dict_err hg hf] at h
          exact RResult.noConfusion h
        | panic pm =>
          rw [decompressLoop_dict_panic hg hf] at h
          exact RResult.noConfusion h
      | Literal L =>
        cases h2 : read_bytes rest L with
        | some v2 =>
          obtain ⟨bytes, rest2⟩ := v2
          rw [decompressLoop_lit_ok hg h2] at h
          have hr2l : rest2.length ≤ rest.length := by
            rw [(read_bytes_ok h2).2.1]
            simp
          obtain ⟨⟨tail, htail⟩, ts, hts, hsum⟩ := ih rest2 (by omega) _ res h
          have hblen : bytes.length = L := (read_bytes_ok h2).2.2
          refine ⟨⟨bytes ++ tail, by rw [htail, List.append_assoc]⟩,
            Offset.Literal L :: ts, ?_, ?_⟩
          · rw [parse_tokens_lit_ok hg h2, hts]
            rfl
          · simp only [List.map_cons, List.sum_cons, token_length]
            simp only [List.length_append] at hsum
            omega
        | none =>
          rw [decompressLoop_lit_trunc hg h2] at h
          exact RResult.noConfusion h

/-- C1: for a control byte cb with q = cb & 0x1F, get_control_bytes
returns: category 1 → a Literal of length 1 + q consuming no follow-up
byte; category c ∈ {3,…,8} → after one follow-up byte r, a Dictionary
match of length c and offset (q<<8) + r + 1; category 9 → after two
follow-up bytes r and s, a Dictionary match of length 9 + r and offset
(q<<8) + s + 1. -/
theorem C1_get_control_bytes_token_layout (cb : Nat) :
    (cb_mask cb = some 1 →
      ∀ t, get_control_bytes (cb :: t) = .ok (.Literal (1 + (cb &&& 0x1F)), t)) ∧
    (∀ c, cb_mask cb = some c → 3 ≤ c → c ≤ 8 →
      ∀ r t, get_control_bytes (cb :: r :: t) =
        .ok (.Dictionary c (((cb &&& 0x1F) <<< 8) + r + 1), t)) ∧
    (cb_mask cb = some 9 →
      ∀ r s t, get_control_bytes (cb :: r :: s :: t) =
        .ok (.Dictionary (9 + r) (((cb &&& 0x1F) <<< 8) + s + 1), t)) := by
  refine ⟨?_, ?_, ?_⟩
  · intro h t
    exact get_control_bytes_literal t h
  · intro c h h3 h4 r t
    exact get_control_bytes_mid t h h3 h4
  · intro h r s t
    exact get_control_bytes_nine t h

/-- Witness for C1 at the control bytes 0x02 (category 1), 0x20
(category 3) and 0xE0 (category 9). -/
theorem C1_witness :
    get_control_bytes [0x02, 10, 11, 12] = .ok (.Literal 3, [10, 11, 12]) ∧
    get_control_bytes [0x20, 0x0E] = .ok (.Dictionary 3 15, []) ∧
    get_control_bytes [0xE0, 2, 14, 99] = .ok (.Dictionary 11 15, [99]) := by
  refine ⟨?_, ?_, ?_⟩
  · exact (C1_get_control_bytes_token_layout 0x02).1 (by decide) [10, 11, 12]
  · exact (C1_get_control_bytes_token_layout 0x20).2.1 3 (by decide) (by decide) (by decide) 0x0E []
  · exact (C1_get_control_bytes_token_layout 0xE0).2.2 (by decide) 2 14 [99]

/-- C2: for 1 ≤ offset ≤ buffer length, fetch_offset succeeds and
returns the trailing offset-byte window repeated cyclically and
truncated to exactly `length` bytes: byte i of the result is
buffer[buffer.len() - offset + (i mod offset)], equivalently entry
i mod offset of the trailing window, and when length ≤ offset the result
is the plain contiguous copy of the offset most recent bytes truncated
to length; the buffer argument is never mutated (fetch_offset returns a
fresh list). -/
theorem C2_fetch_offset_cyclic_window (dictionary : List Nat) (length offset : Nat)
    (h1 : 1 ≤ offset) (h2 : offset ≤ dictionary.length) :
    fetch_offset dictionary length offset = .ok (resolve_match dictionary length offset) ∧
    (resolve_match dictionary length offset).length = length ∧
    (∀ i, i < length → (resolve_match dictionary length offset).getD i 0 =
      dictionary.getD (dictionary.length - offset + i % offset) 0) ∧
    (∀ i, i < length → (resolve_match dictionary length offset).getD i 0 =
      (dictionary.drop (dictionary.length - offset)).getD (i % offset) 0) ∧
    (length ≤ offset → resolve_match dictionary length offset =
      (dictionary.drop (dictionary.length - offset)).take length) := by
  refine ⟨fetch_offset_ok h1 h2 length, resolve_match_length _ _ _, ?_, ?_, ?_⟩
  · intro i hi
    unfold resolve_match
    rw [getD_map_range hi]
  · intro i hi
    unfold resolve_match
    rw [getD_map_range hi, getD_drop]
  · intro h
    exact resolve_match_take h2 h h1

/-- Witness for C2 on the wrap example of the repository's tests:
buffer [0,1,0,0,0], length 16, offset 4. -/
theorem C2_witness :
    fetch_offset [0, 1, 0, 0, 0] 16 4 = .ok (resolve_match [0, 1, 0, 0, 0] 16 4) ∧
    resolve_match [0, 1, 0, 0, 0] 16 4 =
      [1, 0, 0, 0, 1, 0, 0, 0, 1, 0, 0, 0, 1, 0, 0, 0] := by
  refine ⟨?_, by decide⟩
  exact (C2_fetch_offset_cyclic_window [0, 1, 0, 0, 0] 16 4 (by decide) (by decide)).1

/-- C3: the claim says a stream ending after a match-category control
byte but before its follow-up bytes makes decompress return an error.
The code does the opposite: get_control_bytes propagates the read error,
but the decode loop treats every get_control_bytes error as clean
termination, so decompress returns Ok with the buffer so far. Evaluated
here at the failing inputs [0x20] (category 3, missing its one follow-up
byte) and [0xE0, 0x00] (category 9, missing its second follow-up
byte). -/
theorem C3_truncated_followup_returns_ok :
    get_control_bytes [0x20] = .err "failed to fill whole buffer" ∧
    get_control_bytes [0xE0, 0x00] = .err "failed to fill whole buffer" ∧
    decompress [0x20] = .ok [] ∧
    decompress [0xE0, 0x00] = .ok [] := by
  refine ⟨by decide, by decide, ?_, ?_⟩
  · rw [decompress]
    exact decompressLoop_gcb_err
      (show get_control_bytes [0x20] = .err "failed to fill whole buffer" by decide)
  · rw [decompress]
    exact decompressLoop_gcb_err
      (show get_control_bytes [0xE0, 0x00] = .err "failed to fill whole buffer" by decide)

/-- C4: with offset ≥ 1, fetch_offset fails exactly when
offset > buffer.len(), returning the OffsetOutOfRange-style error before
copying; for offset ≤ buffer.len() (including offset = buffer.len()) it
succeeds for every length, and the defensive index check (the
"Index out of bounds." branch) is unreachable. -/
theorem C4_fetch_offset_error_iff (dictionary : List Nat) (length offset : Nat)
    (h1 : 1 ≤ offset) :
    (dictionary.length < offset →
      fetch_offset dictionary length offset = .err "Offset larger than dictionary") ∧
    (offset ≤ dictionary.length →
      fetch_offset dictionary length offset = .ok (resolve_match dictionary length offset)) ∧
    (offset ≤ dictionary.length →
      fetch_offset dictionary length offset ≠ .err "Index out of bounds.") := by
  refine ⟨fetch_offset_oob, fun h2 => fetch_offset_ok h1 h2 length, fun h2 => ?_⟩
  rw [fetch_offset_ok h1 h2 length]
  exact fun hc => RResult.noConfusion hc

/-- Witness for C4: offset 6 exceeds the 5-byte buffer and fails;
the boundary offset 5 on the same buffer succeeds. -/
theorem C4_witness :
    fetch_offset [1, 2, 3, 4, 5] 2 6 = .err "Offset larger than dictionary" ∧
    fetch_offset [1, 2, 3, 4, 5] 2 5 = .ok (resolve_match [1, 2, 3, 4, 5] 2 5) := by
  refine ⟨?_, ?_⟩
  · exact (C4_fetch_offset_error_iff [1, 2, 3, 4, 5] 2 6 (by decide)).1 (by decide)
  · exact (C4_fetch_offset_error_iff [1, 2, 3, 4, 5] 2 5 (by decide)).2.1 (by decide)

/-- C5: every one of the 256 control byte values matches a category (the
terminal panic branch of cb_mask is unreachable), and the category
equals the fixed mapping of the byte's top three bits: 000→1, 001→3,
010→4, 011→5, 100→6, 101→7, 110→8, 111→9. -/
theorem C5_cb_mask_total_table (i : Nat) (hi : i < 256) :
    cb_mask i ≠ none ∧ cb_mask i = some (category_of_top3 (i >>> 5)) := by
  have h := cb_mask_table i hi
  refine ⟨?_, h⟩
  rw [h]
  exact fun hc => Option.noConfusion hc

/-- Witness for C5 at control byte 0xE3 (top bits 111, category 9). -/
theorem C5_witness :
    cb_mask 0xE3 ≠ none ∧ cb_mask 0xE3 = some (category_of_top3 (0xE3 >>> 5)) :=
  C5_cb_mask_total_table 0xE3 (by decide)

/-- C6: a category-1 control byte declaring length L with fewer than L
payload bytes remaining makes the decode loop abort with the
truncated-literal error, whatever was accumulated so far. -/
theorem C6_truncated_literal_errs (stream rest dictionary : List Nat) (L : Nat)
    (h : get_control_bytes stream = .ok (.Literal L, rest))
    (hlen : rest.length < L) :
    decompressLoop stream dictionary =
      .err "Cannot take any more literal bytes, reached end of compressed buffer." :=
  decompressLoop_lit_trunc h (read_bytes_none hlen)

/-- Witness for C6: input [0x02] declares a 3-byte literal with no
payload bytes following. -/
theorem C6_witness :
    decompressLoop [0x02] [] =
      .err "Cannot take any more literal bytes, reached end of compressed buffer." :=
  C6_truncated_literal_errs [0x02] [] [] 3 (by decide) (by decide)

/-- C7: end of input at a token boundary is the designed success signal:
decompress of the empty input returns Ok with the empty buffer, the
decode loop on empty remaining input returns Ok with the buffer
accumulated so far, and any get_control_bytes read error at a token
boundary likewise terminates with Ok. -/
theorem C7_boundary_termination :
    decompress [] = .ok [] ∧
    (∀ dictionary, decompressLoop [] dictionary = .ok dictionary) ∧
    (∀ stream dictionary e, get_control_bytes stream = .err e →
      decompressLoop stream dictionary = .ok dictionary) := by
  refine ⟨?_, decompressLoop_nil, fun _ _ _ h => decompressLoop_gcb_err h⟩
  rw [decompress]
  exact decompressLoop_nil []

/-- Witness for C7's token-boundary conjunct at a concrete stream and
buffer. -/
theorem C7_witness :
    decompressLoop [0x20] [5] = .ok [5] :=
  C7_boundary_termination.2.2 [0x20] [5] "failed to fill whole buffer" (by decide)

/-- C8: whenever the decode loop finishes with Ok, the result extends
the starting buffer purely by appending (the buffer at every
intermediate state is a prefix of every later one, since this holds for
arbitrary starting buffers), and the final length is the starting length
plus the sum of the lengths of all literal and match tokens processed
(the token trace of the stream). -/
theorem C8_buffer_monotone_and_accounted (stream dictionary res : List Nat)
    (h : decompressLoop stream dictionary = .ok res) :
    (∃ tail, res = dictionary ++ tail) ∧
    ∃ ts, parse_tokens stream = some ts ∧
      res.length = dictionary.length + (ts.map token_length).sum :=
  decompressLoop_ok_spec stream.length stream le_rfl dictionary res h

/-- Witness for C8 on a literal token appended to a nonempty buffer. -/
theorem C8_witness :
    (∃ tail, ([9, 5, 6, 7] : List Nat) = [9] ++ tail) ∧
    ∃ ts, parse_tokens [0x02, 5, 6, 7] = some ts ∧
      ([9, 5, 6, 7] : List Nat).length = ([9] : List Nat).length + (ts.map token_length).sum := by
  apply C8_buffer_monotone_and_accounted
  rw [decompressLoop_lit_ok
      (show get_control_bytes [0x02, 5, 6, 7] = .ok (.Literal 3, [5, 6, 7]) by decide)
      (show read_bytes [5, 6, 7] 3 = some ([5, 6, 7], []) by decide),
    decompressLoop_nil]
  rfl

/-- C9: the sink-directed entry point (modelled from the spec, as lib.rs
exports only the buffered decompress) writes to the sink exactly the
bytes that buffered decompress returns, succeeds or fails under exactly
the same conditions, and hands no bytes back to the caller. -/
theorem C9_sink_entry_equivalence (stream sink : List Nat) :
    (∀ bs, decompress stream = .ok bs →
      decompress_sink stream sink = (.ok (), sink ++ bs)) ∧
    (∀ e, decompress stream = .err e →
      decompress_sink stream sink = (.err e, sink)) ∧
    (∀ msg, decompress stream = .panic msg →
      decompress_sink stream sink = (.panic msg, sink)) := by
  unfold decompress decompress_sink
  refine ⟨?_, ?_, ?_⟩ <;> · intro x h; rw [h]

/-- Witness for C9 on the empty stream with a nonempty sink. -/
theorem C9_witness :
    decompress_sink [] [7] = (RResult.ok (), [7]) := by
  have h : decompress [] = RResult.ok [] := by
    rw [decompress]
    exact decompressLoop_nil []
  have h2 := (C9_sink_entry_equivalence [] [7]).1 [] h
  simpa using h2

/-- C10: every Dictionary token produced by get_control_bytes has
offset ≥ 1 and length ≥ 3, so fetch_offset is never called with a zero
offset, and for any stream of bytes below 256 the decode loop (hence
decompress) never panics: it returns Ok or Err. -/
theorem C10_no_panic :
    (∀ stream rest L O, get_control_bytes stream = .ok (.Dictionary L O, rest) →
      1 ≤ O ∧ 3 ≤ L) ∧
    (∀ stream, (∀ b ∈ stream, b < 256) →
      ∀ dictionary msg, decompressLoop stream dictionary ≠ .panic msg) ∧
    (∀ stream, (∀ b ∈ stream, b < 256) → ∀ msg, decompress stream ≠ .panic msg) := by
  refine ⟨fun stream rest L O h => get_control_bytes_dict_bounds h, ?_, ?_⟩
  · intro stream hb dictionary msg
    exact decompressLoop_ne_panic_aux stream.length stream le_rfl hb dictionary msg
  · intro stream hb msg
    rw [decompress]
    exact decompressLoop_ne_panic_aux stream.length stream le_rfl hb [] msg

/-- Witness for C10: the match token of [0x20, 0x0E] has offset 15 ≥ 1
and length 3 ≥ 3, and decompress of [0x20] is not a panic. -/
theorem C10_witness :
    (1 ≤ 15 ∧ 3 ≤ 3) ∧ decompress [0x20] ≠ RResult.panic "x" :=
  ⟨C10_no_panic.1 [0x20, 0x0E] [] 3 15 (by decide),
   C10_no_panic.2.2 [0x20] (by decide) "x"⟩

end LZ77
